import Mathlib

/-!
# Verification of the command-queue execution engine

This file is a shallow embedding, in Lean 4, of the queue/batch execution
engine of the command-queue library (source file src/CommandQueue.js, with
the historical variants kept next to it).  The engine runs batches of
commands strictly in submission order; each batch runs its work items under
one of three disciplines (sync, async, parallel), and a close operation
terminates outstanding child processes, recursing through nested queues.

The JavaScript code is promise-driven.  The embedding models it as pure
functions over explicit data:

* a work item is abstracted by the outcome of its promise (a Bool) plus the
  observable events it emits;
* the completion order of concurrently running items is an explicit
  schedule (a permutation of the item indices);
* the third-party deferred library is modelled by its documented contract:
  a deferred settles at most once, the first settlement wins;
* the mutable children list of the model is passed as explicit state, and
  kill signals become events in a trace.

Events are identified by paths: the top-level queue has path `[]`, batch
`b` of a queue at path `p` has path `p ++ [b]`, and item `i` of that batch
has path `p ++ [b, i]`.
-/

namespace CommandQueue

/-- Execution discipline of a batch, as selected by the fluent API methods
sync(), async() and parallel() (CommandQueue.js lines 71-99). -/
inductive Discipline where
  | sync : Discipline
  | async : Discipline
  | parallel : Discipline
deriving DecidableEq, Repr

/-- Observable events of an execution.  `start p` is the start of the work
item at path `p`; `fin p ok` is the completion of that item with success
flag `ok`; `term p` is a SIGINT termination request sent to the child at
path `p`; `settle p ok` is the one-time settlement of the run() promise of
the queue at path `p`. -/
inductive Event where
  | start : List Nat → Event
  | fin : List Nat → Bool → Event
  | term : List Nat → Event
  | settle : List Nat → Bool → Event
deriving DecidableEq, Repr

/-- Snapshot of one entry of the children list of the model
(CommandQueue.js lines 274-277 and 256-258).  A plain spawned command is
`proc closed` where `closed` records whether its close event has fired; a
nested CommandQueue pushed by runCommand is `sub cs` where `cs` is the
snapshot of the children list of its model. -/
inductive Child where
  | proc : Bool → Child
  | sub : List Child → Child

/-- State of a deferred from the third-party deferred library.  Modelled
from the spec: the library itself is an external dependency (not part of
this repository); the spec requires that a deferred settles exactly once,
so the state is `none` while pending and `some ok` once settled. -/
abbrev DeferredState := Option Bool

/-- Settlement attempt on a deferred: the first settlement wins, later
attempts leave the state unchanged.  Modelled from the spec (settles
exactly once, no partial or multiple settlement). -/
def settleD : DeferredState → Bool → DeferredState
  | none, b => some b
  | some v, _ => some v

/-- Rejection of a deferred, as performed by def.reject() in the source:
a settlement attempt with value false. -/
def rejectD (d : DeferredState) : DeferredState := settleD d false

/-- Embedding of modelProto.close (CommandQueue.js lines 296-305): walk the
children list; for a nested CommandQueue recurse into its model, otherwise
send SIGINT unless the child has already closed.  The function returns the
list of child paths that receive a kill signal, in iteration order; the
first argument is the index of the first child in the list being walked.
Note that the source tracks no killed flag, so the walk is stateless. -/
def closeAux : Nat → List Child → List (List Nat)
  | _, [] => []
  | i, Child.proc closed :: rest =>
      (if closed then [] else [[i]]) ++ closeAux (i + 1) rest
  | i, Child.sub cs :: rest =>
      (closeAux 0 cs).map (fun q => i :: q) ++ closeAux (i + 1) rest

/-- Kill paths produced by one invocation of modelProto.close on a given
children snapshot (CommandQueue.js lines 296-305). -/
def close (cs : List Child) : List (List Nat) := closeAux 0 cs

/-- Embedding of modelProto.areAllClosed (CommandQueue.js lines 311-321):
return false at the first non-queue child whose closed flag is unset;
children that are nested CommandQueue instances are skipped without any
recursive inspection. -/
def areAllClosed : List Child → Bool
  | [] => true
  | Child.proc closed :: rest => if !closed then false else areAllClosed rest
  | Child.sub _ :: rest => areAllClosed rest

/-! ## The variant close with a killed flag

The historical variant of the model (src/unnamed/part_001, lines 291-326)
additionally records on each child whether SIGINT has already been sent,
and skips children that are closed or already killed. -/

/-- Child entry of the variant model (part_001 lines 291-295): a plain
command child carries a closed flag and a killed flag; a nested queue
child carries the children of its model. -/
inductive ChildK where
  | proc : Bool → Bool → ChildK
  | sub : List ChildK → ChildK

/-- Embedding of the variant modelProto.close (part_001 lines 316-326):
kill a plain child only if it is neither closed nor killed, and set its
killed flag; recurse into nested queue children.  Returns the kill paths
and the updated children state. -/
def closeKilledAux : Nat → List ChildK → List (List Nat) × List ChildK
  | _, [] => ([], [])
  | i, ChildK.proc closed killed :: rest =>
      let r := closeKilledAux (i + 1) rest
      if !closed && !killed then
        ([i] :: r.1, ChildK.proc closed true :: r.2)
      else
        (r.1, ChildK.proc closed killed :: r.2)
  | i, ChildK.sub cs :: rest =>
      let rc := closeKilledAux 0 cs
      let r := closeKilledAux (i + 1) rest
      ((rc.1.map fun q => i :: q) ++ r.1, ChildK.sub rc.2 :: r.2)

/-- One invocation of the variant close on a children state. -/
def closeKilled (cs : List ChildK) : List (List Nat) × List ChildK :=
  closeKilledAux 0 cs

/-! ## Batch executors

The three batch executors of the model are parametric in the behaviour of
runCommand: each work item is abstracted by the settlement of the promise
runCommand returns and by the trace of events it emits. -/

/-- Embedding of modelProto.runSync (CommandQueue.js lines 181-203): the
runNext closure runs the item at the current index, continues with the
next index when its promise resolves, and rejects the batch deferred when
it rejects, so later items never run; the batch resolves after the last
item.  The argument lists, per item in list order, the settlement and the
trace of that item if it were run. -/
def runSync : List (Bool × List Event) → Bool × List Event
  | [] => (true, [])
  | r :: rest =>
      if r.1 then
        let s := runSync rest
        (s.1, r.2 ++ s.2)
      else
        (false, r.2)

/-- Completion prefix of a concurrent batch: walk the completion schedule
(order in which item promises settle) and stop at the first item whose
promise rejects.  This is the list of items whose settlements the combined
deferred actually processes before it settles
(deferred.apply in CommandQueue.js lines 216 and 233). -/
def completedList (rs : List Bool) : List Nat → List Nat
  | [] => []
  | i :: rest =>
      if rs.getD i true then i :: completedList rs rest else [i]

/-- Whether item `i` has completed by the time the combined deferred of a
concurrent batch settles. -/
def completedBy (rs : List Bool) (sched : List Nat) (i : Nat) : Bool :=
  (completedList rs sched).contains i

/-- Settlement of the combined deferred over the item promises of a
concurrent batch, processed in schedule order: it rejects at the first
rejection and resolves once every promise has resolved
(deferred.apply in CommandQueue.js lines 216 and 233). -/
def applyAll (rs : List Bool) : List Nat → Bool
  | [] => true
  | i :: rest => if rs.getD i true then applyAll rs rest else false

/-- Start events of a concurrent batch: the for loop starts every item
immediately, in append order (CommandQueue.js lines 213-215, 229-231). -/
def startEvents (p : List Nat) (n : Nat) : List Event :=
  (List.range n).map (fun i => Event.start (p ++ [i]))

/-- Completion events of a concurrent batch that occur before its combined
deferred settles, in schedule order. -/
def finEvents (p : List Nat) (rs : List Bool) (sched : List Nat) : List Event :=
  (completedList rs sched).map (fun i => Event.fin (p ++ [i]) (rs.getD i true))

/-- Embedding of modelProto.runAsync (CommandQueue.js lines 211-217): start
every item immediately in append order and return the combined deferred of
their promises; no termination is ever issued.  `p` is the path of the
batch, `rs` lists the settlement of each item, and `sched` is the order in
which the item promises settle. -/
def runAsync (p : List Nat) (rs : List Bool) (sched : List Nat) : Bool × List Event :=
  (applyAll rs sched, startEvents p rs.length ++ finEvents p rs sched)

/-- Abstraction of one item of a parallel batch: a plain command with the
settlement of its promise, or a nested queue with the settlement of its
run() and the snapshot of the children list of its model at the moment the
parallel batch fails (the nested run may still be in flight then, so the
snapshot is a parameter). -/
inductive PItem where
  | pcmd : Bool → PItem
  | psub : Bool → List Child → PItem

/-- Settlement of the promise runCommand returns for a parallel item. -/
def PItem.ok : PItem → Bool
  | pcmd b => b
  | psub b _ => b

/-- Children entry pushed by runCommand for one parallel item
(CommandQueue.js lines 256-258 and 274-277, 288), with the closed flag it
has at the moment the combined deferred settles: a plain command is closed
exactly when its close event was processed by then; a nested queue child
carries no closed flag. -/
def pchild (rs : List Bool) (sched : List Nat) (i : Nat) : PItem → Child
  | PItem.pcmd _ => Child.proc (completedBy rs sched i)
  | PItem.psub _ snap => Child.sub snap

/-- Children entries pushed by a parallel batch, in push order; the first
argument is the index of the first item. -/
def pchildren (rs : List Bool) (sched : List Nat) : Nat → List PItem → List Child
  | _, [] => []
  | i, it :: rest => pchild rs sched i it :: pchildren rs sched (i + 1) rest

/-- Embedding of modelProto.runParallel (CommandQueue.js lines 225-242):
start every item immediately in append order; if the combined deferred
rejects, call self.close() on the children list of the model and only then
reject the batch deferred.  `prior` is the content of the children list
before this batch pushed its own children (children accumulate across the
batches of one run), so close walks `prior` followed by the children of
this batch. -/
def runParallel (p : List Nat) (prior : List Child) (items : List PItem)
    (sched : List Nat) : Bool × List Event :=
  let rs := items.map PItem.ok
  if applyAll rs sched then
    (true, startEvents p items.length ++ finEvents p rs sched)
  else
    (false,
      startEvents p items.length ++ finEvents p rs sched
        ++ (close (prior ++ pchildren rs sched 0 items)).map
            (fun q => Event.term (p ++ q)))

/-- Embedding of the runNext closure of CommandQueue.run (CommandQueue.js
lines 106-131): run the batch at the current index, continue with the next
batch when its promise resolves, reject the run deferred when it rejects
(so later batches never run), and resolve the run deferred after the last
batch.  `p` is the path of the queue; the argument lists, per batch in
append order, the settlement and the trace of that batch if it were run. -/
def run (p : List Nat) : List (Bool × List Event) → Bool × List Event
  | [] => (true, [Event.settle p true])
  | r :: rest =>
      if r.1 then
        let s := run p rest
        (s.1, r.2 ++ s.2)
      else
        (false, r.2 ++ [Event.settle p false])

/-! ## The full interpreter

Work items, batches and queues of the source form a tree: an item is
either a plain command or a nested CommandQueue, and a queue is a list of
batches, each a discipline, a completion schedule and a list of items.
The interpreter below ties the batch executors together exactly as
CommandQueue.run and modelProto.runCommand do.  Internal events of a
nested queue running inside a sync batch appear inline in the trace
(sequential execution is deterministic); for a nested queue running
concurrently inside an async or parallel batch, the interleaving of its
internal events with its siblings is timing-dependent, so those batches
contribute only the per-item start and completion events. -/

mutual
/-- Work item of a batch: a plain command abstracted by the settlement of
its promise, or a nested CommandQueue. -/
inductive WorkItem : Type where
  | cmd : Bool → WorkItem
  | sub : QueueDef → WorkItem

/-- Queue of batched commands (the queue array of the model): each batch
records its discipline, the completion schedule of its items, and the
items themselves. -/
inductive QueueDef : Type where
  | qnil : QueueDef
  | qcons : Discipline → List Nat → ItemList → QueueDef → QueueDef

/-- List of the work items of one batch. -/
inductive ItemList : Type where
  | inil : ItemList
  | icons : WorkItem → ItemList → ItemList
end

mutual
/-- Embedding of modelProto.runCommand (CommandQueue.js lines 250-291) at
item path `p`: a nested CommandQueue is run through its own run() and the
item settles exactly as the nested run settles; a plain command emits its
start and its completion. -/
def runCommand (p : List Nat) : WorkItem → Bool × List Event
  | WorkItem.cmd b => (b, [Event.start p, Event.fin p b])
  | WorkItem.sub q =>
      let r := runBatches p 0 [] q
      (r.1, Event.start p :: (r.2 ++ [Event.fin p r.1]))

/-- Results of running the items of a batch at paths `p ++ [i]`,
`p ++ [i+1]`, and so on. -/
def runCommands (p : List Nat) (i : Nat) : ItemList → List (Bool × List Event)
  | ItemList.inil => []
  | ItemList.icons it rest => runCommand (p ++ [i]) it :: runCommands p (i + 1) rest

/-- Parallel-batch abstraction of the items of a batch: each nested queue
contributes the settlement of its run() and the children of its model. -/
def pitemsOf : ItemList → List PItem
  | ItemList.inil => []
  | ItemList.icons it rest =>
      (match it with
        | WorkItem.cmd b => PItem.pcmd b
        | WorkItem.sub q => PItem.psub (runBatches [] 0 [] q).1 (batchContribs q).flatten)
        :: pitemsOf rest

/-- Children pushed by a sync batch: runCommand pushes one child per item
actually run, so the walk stops after the first failing item; every child
of a completed sync item is closed, and a nested queue child carries the
children of its model. -/
def syncChildren : ItemList → List Child
  | ItemList.inil => []
  | ItemList.icons it rest =>
      let c : Child :=
        match it with
        | WorkItem.cmd _ => Child.proc true
        | WorkItem.sub q => Child.sub (batchContribs q).flatten
      if (runCommand [] it).1 then c :: syncChildren rest else [c]

/-- Children pushed by an async or parallel batch: the for loop pushes one
child per item immediately; a plain command is closed at batch settlement
exactly when its completion was processed by then. -/
def asyncChildren (rs : List Bool) (sched : List Nat) : Nat → ItemList → List Child
  | _, ItemList.inil => []
  | i, ItemList.icons it rest =>
      (match it with
        | WorkItem.cmd _ => Child.proc (completedBy rs sched i)
        | WorkItem.sub q => Child.sub (batchContribs q).flatten)
        :: asyncChildren rs sched (i + 1) rest

/-- Children pushed onto the children list of the model by each executed
batch of a run, in batch order: execution stops after the first failing
batch (CommandQueue.js lines 116-130), and nothing ever removes a pushed
child during a run. -/
def batchContribs : QueueDef → List (List Child)
  | QueueDef.qnil => []
  | QueueDef.qcons d sched items rest =>
      let ri := runCommands [] 0 items
      let rs := ri.map Prod.fst
      let contrib :=
        match d with
        | Discipline.sync => syncChildren items
        | _ => asyncChildren rs sched 0 items
      let ok :=
        match d with
        | Discipline.sync => (runSync ri).1
        | _ => applyAll rs sched
      if ok then contrib :: batchContribs rest else [contrib]

/-- Embedding of CommandQueue.run (CommandQueue.js lines 106-131) from
batch index `b` onward, where `children` is the content of the children
list of the model accumulated by the earlier batches of this run: each
batch runs through the executor its discipline selects, the next batch
starts only once the current batch resolves, the first failing batch
rejects the run deferred, and the run deferred resolves after the last
batch. -/
def runBatches (p : List Nat) (b : Nat) (children : List Child) :
    QueueDef → Bool × List Event
  | QueueDef.qnil => (true, [Event.settle p true])
  | QueueDef.qcons d sched items rest =>
      let ri := runCommands (p ++ [b]) 0 items
      let rs := ri.map Prod.fst
      let r : Bool × List Event :=
        match d with
        | Discipline.sync => runSync ri
        | Discipline.async => runAsync (p ++ [b]) rs sched
        | Discipline.parallel => runParallel (p ++ [b]) children (pitemsOf items) sched
      let contrib : List Child :=
        match d with
        | Discipline.sync => syncChildren items
        | _ => asyncChildren rs sched 0 items
      if r.1 then
        let s := runBatches p (b + 1) (children ++ contrib) rest
        (s.1, r.2 ++ s.2)
      else
        (false, r.2 ++ [Event.settle p false])
end

/-- Embedding of CommandQueue.run (CommandQueue.js lines 106-131) for a
queue at path `p`: reset the run deferred and the children list, then
drive the batches in append order. -/
def runQueue (p : List Nat) (q : QueueDef) : Bool × List Event :=
  runBatches p 0 [] q

/-- Unfolding equation of runQueue. -/
theorem runQueue_def (p : List Nat) (q : QueueDef) :
    runQueue p q = runBatches p 0 [] q := rfl

/-- Children list of the model at the moment batch `k` of a run starts:
run() clears the list, and each earlier executed batch appended its own
children. -/
def childrenAtBatch (q : QueueDef) (k : Nat) : List Child :=
  ((batchContribs q).take k).flatten

/-- State of one CommandQueue as seen by proto.close: the children list of
its model and its run deferred, which is null until run() is first called
(CommandQueueModel constructor, CommandQueue.js lines 149-158). -/
structure QState where
  children : List Child
  runDeferred : Option DeferredState

/-- Embedding of proto.close (CommandQueue.js lines 136-140): call
m.close() (the returned kill paths) and then m.runDeferred.reject().  When
run() has never been called, m.runDeferred is still null, so the member
access throws a TypeError: the result state is `none` in that case. -/
def protoClose (s : QState) : List (List Nat) × Option QState :=
  (close s.children,
    match s.runDeferred with
    | none => none
    | some d => some ⟨s.children, some (rejectD d)⟩)

/-- Predicate picking out the settlement events of the queue at path `p`
inside a trace. -/
def isSettleAt (p : List Nat) : Event → Bool
  | Event.settle q _ => q == p
  | _ => false

/-- Invariant of a variant children state: every plain child, at any
depth, is closed or already killed. -/
def sigOKList : List ChildK → Bool
  | [] => true
  | ChildK.proc closed killed :: rest => (closed || killed) && sigOKList rest
  | ChildK.sub cs :: rest => sigOKList cs && sigOKList rest

/-- Natural evolution of a variant children state between two invocations
of close: a plain child may close naturally (the closed flag never
reverts, as the close event of a process fires at most once), the killed
flag is only written by close itself, and the tree structure is fixed for
the duration of a run. -/
inductive EvolveL : List ChildK → List ChildK → Prop where
  | nil : EvolveL [] []
  | proc {c c' k : Bool} {r r' : List ChildK} : (c = true → c' = true) →
      EvolveL r r' → EvolveL (ChildK.proc c k :: r) (ChildK.proc c' k :: r')
  | sub {cs cs' r r' : List ChildK} : EvolveL cs cs' → EvolveL r r' →
      EvolveL (ChildK.sub cs :: r) (ChildK.sub cs' :: r')

/-- Concrete queue used to exhibit the children accumulation: two sync
batches of one succeeding command each. -/
def q2 : QueueDef :=
  QueueDef.qcons Discipline.sync [] (ItemList.icons (WorkItem.cmd true) ItemList.inil)
    (QueueDef.qcons Discipline.sync [] (ItemList.icons (WorkItem.cmd true) ItemList.inil)
      QueueDef.qnil)

/-! ## Supporting lemmas -/

theorem applyAll_eq_all_getD (rs : List Bool) (sched : List Nat) :
    applyAll rs sched = sched.all (fun i => rs.getD i true) := by
  induction sched with
  | nil => simp [applyAll]
  | cons i rest ih =>
    simp only [applyAll, List.all_cons, ih]
    cases rs.getD i true <;> simp

theorem all_eq_of_perm {α : Type} (f : α → Bool) {l₁ l₂ : List α}
    (h : l₁.Perm l₂) : l₁.all f = l₂.all f := by
  cases hb : l₂.all f with
  | true =>
    rw [List.all_eq_true] at hb ⊢
    exact fun x hx => hb x (h.mem_iff.mp hx)
  | false =>
    by_contra hc
    have h1 : l₁.all f = true := by
      cases hh : l₁.all f
      · exact absurd hh hc
      · rfl
    rw [List.all_eq_true] at h1
    have : l₂.all f = true :=
      List.all_eq_true.mpr fun x hx => h1 x (h.mem_iff.mpr hx)
    rw [this] at hb
    cases hb

theorem range_all_getD (rs : List Bool) :
    (List.range rs.length).all (fun i => rs.getD i true) = rs.all id := by
  cases hb : rs.all id with
  | true =>
    rw [List.all_eq_true] at hb ⊢
    intro i hi
    rw [List.mem_range] at hi
    rw [List.getD_eq_getElem rs true hi]
    exact hb rs[i] (List.getElem_mem hi)
  | false =>
    by_contra hc
    have h1 : (List.range rs.length).all (fun i => rs.getD i true) = true := by
      cases hh : (List.range rs.length).all (fun i => rs.getD i true)
      · exact absurd hh hc
      · rfl
    rw [List.all_eq_true] at h1
    have : rs.all id = true := by
      rw [List.all_eq_true]
      intro x hx
      obtain ⟨i, hi, hget⟩ := List.mem_iff_getElem.mp hx
      have := h1 i (List.mem_range.mpr hi)
      simp only [List.getD_eq_getElem rs true hi] at this
      simp [← hget, this]
    rw [this] at hb
    cases hb

/-- Schedule independence of the combined deferred: whatever the completion
order, the batch of a concurrent discipline settles to success exactly when
every item succeeds. -/
theorem applyAll_eq_all (rs : List Bool) (sched : List Nat)
    (h : sched.Perm (List.range rs.length)) :
    applyAll rs sched = rs.all id := by
  rw [applyAll_eq_all_getD, all_eq_of_perm _ h, range_all_getD]

theorem length_startEvents (p : List Nat) (n : Nat) :
    (startEvents p n).length = n := by
  simp [startEvents]

/-! ## C2 — the Sequential discipline -/

/-- C2.  Embedding of the Sequential discipline (modelProto.runSync,
CommandQueue.js lines 181-203).  The batch resolves exactly when every item
resolves; the trace is the concatenation, in list order, of the traces of
the items up to and including the first failing item, so items execute one
at a time with no overlap, a failing item at position k stops the batch,
and the items after it never start (their traces do not appear). -/
theorem sequential_discipline (rl : List (Bool × List Event)) :
    (runSync rl).1 = rl.all (fun r => r.1) ∧
    (runSync rl).2 =
      ((rl.takeWhile (fun r => r.1)).map (fun r => r.2)).flatten
        ++ (((rl.dropWhile (fun r => r.1)).head?.map (fun r => r.2)).getD []) := by
  induction rl with
  | nil => simp [runSync]
  | cons r rest ih =>
    by_cases h : r.1 = true
    · refine ⟨?_, ?_⟩
      · simp [runSync, h, ih.1]
      · simp [runSync, h, ih.2, List.takeWhile_cons, List.dropWhile_cons]
    · refine ⟨?_, ?_⟩
      · simp [runSync, h]
      · simp [runSync, h, List.takeWhile_cons, List.dropWhile_cons]

/-! ## C4 — batches run strictly in append order -/

/-- C4.  Embedding of CommandQueue.run (CommandQueue.js lines 106-131).
The run resolves exactly when every batch resolves; the trace is the
concatenation, in append order, of the traces of the batches up to and
including the first failing batch, followed by the settlement of the run
deferred: each batch is awaited before the next starts, the first failing
batch settles the run to failure, and no event of any later batch appears
(their items never start). -/
theorem batches_in_append_order (p : List Nat) (rl : List (Bool × List Event)) :
    (run p rl).1 = rl.all (fun r => r.1) ∧
    (run p rl).2 =
      ((rl.takeWhile (fun r => r.1)).map (fun r => r.2)).flatten
        ++ (match (rl.dropWhile (fun r => r.1)).head? with
            | some r => r.2 ++ [Event.settle p false]
            | none => [Event.settle p true]) := by
  induction rl with
  | nil => simp [run]
  | cons r rest ih =>
    by_cases h : r.1 = true
    · refine ⟨?_, ?_⟩
      · simp [run, h, ih.1]
      · simp [run, h, ih.2, List.takeWhile_cons, List.dropWhile_cons]
    · refine ⟨?_, ?_⟩
      · simp [run, h]
      · simp [run, h, List.takeWhile_cons, List.dropWhile_cons]

/-! ## C3 — the Concurrent discipline -/

/-- C3.  Embedding of the Concurrent discipline (modelProto.runAsync,
CommandQueue.js lines 211-217).  For every completion schedule, the batch
resolves exactly when every item resolves (the aggregate is independent of
the completion order, so once some item fails the batch fails whatever the
other items do); the first events of the trace are the starts of all items
in append order; and no termination request is ever issued, so the other
items keep running after a failure. -/
theorem concurrent_discipline (p : List Nat) (rs : List Bool) (sched : List Nat)
    (h : sched.Perm (List.range rs.length)) :
    (runAsync p rs sched).1 = rs.all id ∧
    (runAsync p rs sched).2.take rs.length = startEvents p rs.length ∧
    (∀ i, i < rs.length → Event.start (p ++ [i]) ∈ (runAsync p rs sched).2) ∧
    (∀ q, Event.term q ∉ (runAsync p rs sched).2) := by
  refine ⟨applyAll_eq_all rs sched h, ?_, ?_, ?_⟩
  · have h1 := List.take_left (startEvents p rs.length) (finEvents p rs sched)
    rw [length_startEvents] at h1
    exact h1
  · intro i hi
    apply List.mem_append_left
    simp only [startEvents, List.mem_map, List.mem_range]
    exact ⟨i, hi, rfl⟩
  · intro q hq
    rcases List.mem_append.mp hq with h1 | h1
    · simp [startEvents] at h1
    · simp [finEvents] at h1

/-- Witness for C3 at a concrete batch of two items completing out of
append order, the second scheduled first. -/
theorem concurrent_discipline_witness :
    [1, 0].Perm (List.range 2) ∧
    ((runAsync [0] [true, false] [1, 0]).1 = [true, false].all id ∧
      (runAsync [0] [true, false] [1, 0]).2.take 2 = startEvents [0] 2 ∧
      (∀ i, i < 2 → Event.start ([0] ++ [i]) ∈ (runAsync [0] [true, false] [1, 0]).2) ∧
      (∀ q, Event.term q ∉ (runAsync [0] [true, false] [1, 0]).2)) :=
  ⟨by decide, concurrent_discipline [0] [true, false] [1, 0] (by decide)⟩

/-! ## C1 — the ConcurrentCancelOnFailure discipline -/

theorem getElem?_pchildren (rs : List Bool) (sched : List Nat) :
    ∀ (items : List PItem) (k i : Nat),
      (pchildren rs sched k items)[i]? = (items[i]?).map (pchild rs sched (k + i))
  | [], _, _ => by simp [pchildren]
  | _ :: _, _, 0 => by simp [pchildren]
  | _ :: rest, k, i + 1 => by
      have hr := getElem?_pchildren rs sched rest (k + 1) i
      have ha : k + 1 + i = k + (i + 1) := by omega
      rw [ha] at hr
      simpa [pchildren] using hr

theorem mem_closeAux_proc : ∀ (cs : List Child) (k i : Nat),
    cs[i]? = some (Child.proc false) → [k + i] ∈ closeAux k cs
  | [], _, _ => by simp
  | c :: _, k, 0 => by
      intro h
      simp only [List.getElem?_cons_zero, Option.some.injEq] at h
      subst h
      simp [closeAux]
  | c :: rest, k, i + 1 => by
      intro h
      simp only [List.getElem?_cons_succ] at h
      have hr := mem_closeAux_proc rest (k + 1) i h
      have ha : k + 1 + i = k + (i + 1) := by omega
      rw [ha] at hr
      cases c with
      | proc closed =>
          simp only [closeAux]
          exact List.mem_append_right _ hr
      | sub cs2 =>
          simp only [closeAux]
          exact List.mem_append_right _ hr

theorem mem_closeAux_sub : ∀ (cs : List Child) (k i : Nat) (snap : List Child)
    (qp : List Nat), cs[i]? = some (Child.sub snap) → qp ∈ close snap →
    (k + i) :: qp ∈ closeAux k cs
  | [], _, _, _, _ => by simp
  | c :: _, k, 0, snap, qp => by
      intro h hm
      simp only [List.getElem?_cons_zero, Option.some.injEq] at h
      subst h
      simp only [closeAux]
      apply List.mem_append_left
      simp only [List.mem_map]
      exact ⟨qp, hm, by simp⟩
  | c :: rest, k, i + 1, snap, qp => by
      intro h hm
      simp only [List.getElem?_cons_succ] at h
      have hr := mem_closeAux_sub rest (k + 1) i snap qp h hm
      have ha : k + 1 + i = k + (i + 1) := by omega
      rw [ha] at hr
      cases c with
      | proc closed =>
          simp only [closeAux]
          exact List.mem_append_right _ hr
      | sub cs2 =>
          simp only [closeAux]
          exact List.mem_append_right _ hr

/-- C1.  Embedding of the ConcurrentCancelOnFailure discipline
(modelProto.runParallel, CommandQueue.js lines 225-242, and
modelProto.close, lines 296-305) composed with the run driver.  For every
batch in which some item fails, the run settles to failure; the trace ends
with that single settlement, and every termination request in it occurs
strictly before the settlement (runParallel calls self.close() before
rejecting the batch deferred); every plain item that is still running when
the combined deferred rejects receives a termination request; and for
every nested-queue item, close recurses into the children of its model,
so every kill the recursive close produces is also requested.  `prior`
lists the children pushed by the earlier batches of the same run, so the
children walked by close are `prior` followed by the children of this
batch, the child of item `i` sitting at position `prior.length + i`. -/
theorem parallel_cancel_on_failure (p : List Nat) (prior : List Child)
    (items : List PItem) (sched : List Nat)
    (hperm : sched.Perm (List.range items.length))
    (hfail : (items.map PItem.ok).all id = false) :
    (run p [runParallel (p ++ [0]) prior items sched]).1 = false ∧
    (∃ t, (run p [runParallel (p ++ [0]) prior items sched]).2 =
        t ++ [Event.settle p false] ∧
      (∀ b, Event.settle p b ∉ t) ∧
      (∀ q, Event.term q ∈ (run p [runParallel (p ++ [0]) prior items sched]).2 ↔
        Event.term q ∈ t)) ∧
    (∀ i b, items[i]? = some (PItem.pcmd b) →
      completedBy (items.map PItem.ok) sched i = false →
      Event.term ((p ++ [0]) ++ [prior.length + i]) ∈
        (run p [runParallel (p ++ [0]) prior items sched]).2) ∧
    (∀ i b snap qp, items[i]? = some (PItem.psub b snap) → qp ∈ close snap →
      Event.term ((p ++ [0]) ++ (prior.length + i) :: qp) ∈
        (run p [runParallel (p ++ [0]) prior items sched]).2) := by
  have hap : applyAll (items.map PItem.ok) sched = false := by
    rw [applyAll_eq_all _ sched (by simpa using hperm)]
    exact hfail
  have hmem_proc : ∀ i b, items[i]? = some (PItem.pcmd b) →
      completedBy (items.map PItem.ok) sched i = false →
      [prior.length + i] ∈ close (prior ++ pchildren (items.map PItem.ok) sched 0 items) := by
    intro i b hit hcb
    have hg : (prior ++ pchildren (items.map PItem.ok) sched 0 items)[prior.length + i]?
        = (pchildren (items.map PItem.ok) sched 0 items)[i]? := by
      rw [List.getElem?_append_right (by omega)]
      congr 1
      omega
    have hp : (pchildren (items.map PItem.ok) sched 0 items)[i]? =
        some (Child.proc false) := by
      rw [getElem?_pchildren, hit]
      simp [pchild, hcb]
    have hk := mem_closeAux_proc _ 0 (prior.length + i) (hg.trans hp)
    rw [Nat.zero_add] at hk
    exact hk
  have hmem_sub : ∀ i b snap qp, items[i]? = some (PItem.psub b snap) →
      qp ∈ close snap →
      (prior.length + i) :: qp ∈
        close (prior ++ pchildren (items.map PItem.ok) sched 0 items) := by
    intro i b snap qp hit hqp
    have hg : (prior ++ pchildren (items.map PItem.ok) sched 0 items)[prior.length + i]?
        = (pchildren (items.map PItem.ok) sched 0 items)[i]? := by
      rw [List.getElem?_append_right (by omega)]
      congr 1
      omega
    have hp : (pchildren (items.map PItem.ok) sched 0 items)[i]? =
        some (Child.sub snap) := by
      rw [getElem?_pchildren, hit]
      simp [pchild]
    have hk := mem_closeAux_sub _ 0 (prior.length + i) snap qp (hg.trans hp) hqp
    rw [Nat.zero_add] at hk
    exact hk
  have hrp : runParallel (p ++ [0]) prior items sched =
      (false,
        startEvents (p ++ [0]) items.length
          ++ finEvents (p ++ [0]) (items.map PItem.ok) sched
          ++ (close (prior ++ pchildren (items.map PItem.ok) sched 0 items)).map
              (fun q => Event.term ((p ++ [0]) ++ q))) := by
    simp [runParallel, hap]
  rw [hrp]
  have hrn : ∀ (tr : List Event), run p [((false, tr) : Bool × List Event)] =
      (false, tr ++ [Event.settle p false]) := by
    intro tr
    simp [run]
  rw [hrn]
  refine ⟨rfl, ⟨_, rfl, ?_, ?_⟩, ?_, ?_⟩
  · intro b hb
    rcases List.mem_append.mp hb with h1 | h1
    · rcases List.mem_append.mp h1 with h2 | h2
      · simp [startEvents] at h2
      · simp [finEvents] at h2
    · simp at h1
  · intro q
    constructor
    · intro hq
      rcases List.mem_append.mp hq with h1 | h1
      · exact h1
      · simp at h1
    · intro hq
      exact List.mem_append_left _ hq
  · intro i b hit hcb
    apply List.mem_append_left
    apply List.mem_append_right
    simp only [List.mem_map]
    exact ⟨[prior.length + i], hmem_proc i b hit hcb, rfl⟩
  · intro i b snap qp hit hqp
    apply List.mem_append_left
    apply List.mem_append_right
    simp only [List.mem_map]
    exact ⟨(prior.length + i) :: qp, hmem_sub i b snap qp hit hqp, rfl⟩

/-- Witness for C1 at a concrete parallel batch of two plain commands in
which the first fails immediately while the second is still running. -/
theorem parallel_cancel_on_failure_witness :
    [0, 1].Perm (List.range [PItem.pcmd false, PItem.pcmd true].length) ∧
    ([PItem.pcmd false, PItem.pcmd true].map PItem.ok).all id = false ∧
    ((run [] [runParallel ([] ++ [0]) [] [PItem.pcmd false, PItem.pcmd true] [0, 1]]).1 = false ∧
      (∃ t, (run [] [runParallel ([] ++ [0]) [] [PItem.pcmd false, PItem.pcmd true] [0, 1]]).2 =
          t ++ [Event.settle [] false] ∧
        (∀ b, Event.settle [] b ∉ t) ∧
        (∀ q, Event.term q ∈
            (run [] [runParallel ([] ++ [0]) [] [PItem.pcmd false, PItem.pcmd true] [0, 1]]).2 ↔
          Event.term q ∈ t)) ∧
      (∀ i b, [PItem.pcmd false, PItem.pcmd true][i]? = some (PItem.pcmd b) →
        completedBy ([PItem.pcmd false, PItem.pcmd true].map PItem.ok) [0, 1] i = false →
        Event.term (([] ++ [0]) ++ [List.length ([] : List Child) + i]) ∈
          (run [] [runParallel ([] ++ [0]) [] [PItem.pcmd false, PItem.pcmd true] [0, 1]]).2) ∧
      (∀ i b snap qp, [PItem.pcmd false, PItem.pcmd true][i]? = some (PItem.psub b snap) →
        qp ∈ close snap →
        Event.term (([] ++ [0]) ++ (List.length ([] : List Child) + i) :: qp) ∈
          (run [] [runParallel ([] ++ [0]) [] [PItem.pcmd false, PItem.pcmd true] [0, 1]]).2)) :=
  ⟨by decide, by decide,
    parallel_cancel_on_failure [] [] [PItem.pcmd false, PItem.pcmd true] [0, 1]
      (by decide) (by decide)⟩

/-! ## C5 — behaviour of proto.close -/

/-- C5 counterexample.  On a queue on which run() has never been called,
the run deferred of the model is still null (CommandQueueModel
constructor, CommandQueue.js line 157), so proto.close reaches
m.runDeferred.reject() on null and throws a TypeError; the embedded
result state `none` records the throw.  This refutes, at the concrete
input of a freshly constructed queue, the claim that cancel never throws
in every state. -/
theorem close_before_run_throws :
    (protoClose ⟨[], none⟩).2 = none := rfl

/-- C5 amended.  Once run() has been called the run deferred is non-null,
and proto.close (CommandQueue.js lines 136-140) does not throw: it signals
the outstanding children and rejects the run deferred.  A pending run
settles to failure; an already settled run is left unchanged, and
repeating the rejection leaves the settlement unchanged, so repeated
close() calls are a no-op at the level of the run() settlement (each call
does re-walk the children, see C6). -/
theorem close_after_run_never_throws (s : QState) (d : DeferredState)
    (h : s.runDeferred = some d) :
    (protoClose s).2 = some ⟨s.children, some (rejectD d)⟩ ∧
    (d = none → rejectD d = some false) ∧
    (∀ v, d = some v → rejectD d = some v) ∧
    rejectD (rejectD d) = rejectD d := by
  refine ⟨?_, ?_, ?_, ?_⟩
  · simp [protoClose, h]
  · intro hd
    subst hd
    rfl
  · intro v hd
    subst hd
    rfl
  · cases d <;> rfl

/-- Witness for C5 amended at a queue with an in-flight (pending) run. -/
theorem close_after_run_never_throws_witness :
    (⟨[], some none⟩ : QState).runDeferred = some none ∧
    ((protoClose ⟨[], some none⟩).2 =
        some ⟨(⟨[], some none⟩ : QState).children, some (rejectD none)⟩ ∧
      ((none : DeferredState) = none → rejectD none = some false) ∧
      (∀ v, (none : DeferredState) = some v → rejectD none = some v) ∧
      rejectD (rejectD none) = rejectD none) :=
  ⟨rfl, close_after_run_never_throws ⟨[], some none⟩ none rfl⟩

/-! ## C6 — idempotence of the termination signal -/

/-- C6 counterexample.  The close of the current source (CommandQueue.js
lines 296-305) skips only children whose closed flag is set; it records
nowhere that a child was already signalled.  For a children list holding
one child that is still running, two successive invocations of the
terminate-all operation therefore send SIGINT to the same handle twice,
refuting the claim that the signal is sent at most once per handle over
its lifetime. -/
theorem close_resignals_running_handle :
    close [Child.proc false] = [[0]] ∧
    close [Child.proc false] ++ close [Child.proc false] = [[0], [0]] := by
  constructor
  · simp [close, closeAux]
  · simp [close, closeAux]

theorem sigOKList_closeKilledAux : ∀ (i : Nat) (cs : List ChildK),
    sigOKList (closeKilledAux i cs).2 = true
  | _, [] => by simp [closeKilledAux, sigOKList]
  | i, ChildK.proc closed killed :: rest => by
      have hr := sigOKList_closeKilledAux (i + 1) rest
      cases closed <;> cases killed <;>
        simp [closeKilledAux, sigOKList, hr]
  | i, ChildK.sub cs :: rest => by
      have hc := sigOKList_closeKilledAux 0 cs
      have hr := sigOKList_closeKilledAux (i + 1) rest
      simp [closeKilledAux, sigOKList, hc, hr]

theorem evolve_preserves_sigOK : ∀ {cs cs' : List ChildK}, EvolveL cs cs' →
    sigOKList cs = true → sigOKList cs' = true := by
  intro cs cs' h
  induction h with
  | nil => exact fun _ => by simp [sigOKList]
  | proc hm _ ih =>
      intro hs
      simp only [sigOKList, Bool.and_eq_true, Bool.or_eq_true] at hs ⊢
      refine ⟨?_, ih hs.2⟩
      rcases hs.1 with hc | hk
      · exact Or.inl (hm hc)
      · exact Or.inr hk
  | sub _ _ ih1 ih2 =>
      intro hs
      simp only [sigOKList, Bool.and_eq_true] at hs ⊢
      exact ⟨ih1 hs.1, ih2 hs.2⟩

theorem closeKilledAux_nil_of_sigOK : ∀ (i : Nat) (cs : List ChildK),
    sigOKList cs = true → (closeKilledAux i cs).1 = []
  | _, [], _ => by simp [closeKilledAux]
  | i, ChildK.proc c k :: rest, h => by
      simp only [sigOKList, Bool.and_eq_true, Bool.or_eq_true] at h
      have hr := closeKilledAux_nil_of_sigOK (i + 1) rest h.2
      rcases h.1 with hc | hk
      · subst hc
        simp [closeKilledAux, hr]
      · subst hk
        simp [closeKilledAux, hr]
  | i, ChildK.sub cs :: rest, h => by
      simp only [sigOKList, Bool.and_eq_true] at h
      have hc := closeKilledAux_nil_of_sigOK 0 cs h.1
      have hr := closeKilledAux_nil_of_sigOK (i + 1) rest h.2
      simp [closeKilledAux, hc, hr]

/-- C6 amended.  The variant close of the historical model
(src/unnamed/part_001, lines 316-326) additionally tracks a killed flag,
so there the termination signal is at most once per handle: after one
terminate-all invocation, every plain handle at any depth is closed or
killed, that invariant is preserved while handles close naturally, and a
re-invocation of terminate-all signals nothing at all.  In the current
source (CommandQueue.js lines 296-305) only already-closed handles are
skipped, so repeated invocations re-signal a still-running handle (see
the counterexample). -/
theorem closeKilled_at_most_once (cs cs' : List ChildK)
    (h : EvolveL (closeKilled cs).2 cs') :
    (closeKilled cs').1 = [] :=
  closeKilledAux_nil_of_sigOK 0 cs'
    (evolve_preserves_sigOK h (sigOKList_closeKilledAux 0 cs))

/-- Witness for C6 amended: one handle, still running, already signalled
by a first terminate-all; the repeated invocation signals nothing. -/
theorem closeKilled_at_most_once_witness :
    EvolveL (closeKilled [ChildK.proc false false]).2 [ChildK.proc false true] ∧
    (closeKilled [ChildK.proc false true]).1 = [] := by
  have he : (closeKilled [ChildK.proc false false]).2 = [ChildK.proc false true] := by
    simp [closeKilled, closeKilledAux]
  refine ⟨?_, ?_⟩
  · rw [he]
    exact EvolveL.proc (fun hc => hc) EvolveL.nil
  · exact closeKilled_at_most_once [ChildK.proc false false] [ChildK.proc false true]
      (by rw [he]; exact EvolveL.proc (fun hc => hc) EvolveL.nil)

/-! ## C7 — the run settles exactly once -/

theorem countP_settle_run : ∀ (p : List Nat) (rl : List (Bool × List Event)),
    (∀ r ∈ rl, ∀ b, Event.settle p b ∉ r.2) →
    (run p rl).2.countP (isSettleAt p) = 1
  | p, [], _ => by simp [run, isSettleAt]
  | p, r :: rest, h => by
      have h0 : r.2.countP (isSettleAt p) = 0 := by
        rw [List.countP_eq_zero]
        intro e he hc
        cases e with
        | settle q b =>
            have hq : q = p := by simpa [isSettleAt] using hc
            subst hq
            exact h r (by simp) b he
        | start q => simp [isSettleAt] at hc
        | fin q b => simp [isSettleAt] at hc
        | term q => simp [isSettleAt] at hc
      have ih := countP_settle_run p rest
        (fun r2 hr2 b => h r2 (List.mem_cons_of_mem _ hr2) b)
      by_cases hr : r.1 = true
      · simp [run, hr, List.countP_append, h0, ih]
      · simp [run, hr, List.countP_append, h0, isSettleAt]

/-- C7.  Embedding of CommandQueue.run composed with the deferred model.
Provided the batch traces contain no settlement of the queue itself (the
settlements inside them belong to nested queues, whose paths strictly
extend the batch path), the trace of a run carries exactly one settlement
event of this queue, whatever the batch outcomes; and on the deferred
model any further settlement attempts (for example rejections issued by
later cancel() calls) leave an already settled deferred unchanged, so the
run() result settles exactly once, never twice and never partially. -/
theorem run_settles_exactly_once (p : List Nat) (rl : List (Bool × List Event))
    (h : ∀ r ∈ rl, ∀ b, Event.settle p b ∉ r.2) :
    (run p rl).2.countP (isSettleAt p) = 1 ∧
    (∀ (attempts : List Bool) (v : Bool), attempts.foldl settleD (some v) = some v) := by
  refine ⟨countP_settle_run p rl h, ?_⟩
  intro attempts v
  induction attempts with
  | nil => rfl
  | cons a rest ih => simpa [settleD] using ih

/-- Witness for C7 at a run of one succeeding and one failing batch. -/
theorem run_settles_exactly_once_witness :
    (∀ r ∈ [((true, [Event.start [0]]) : Bool × List Event),
        (false, [Event.start [1]])], ∀ b, Event.settle [] b ∉ r.2) ∧
    ((run [] [((true, [Event.start [0]]) : Bool × List Event),
        (false, [Event.start [1]])]).2.countP (isSettleAt []) = 1 ∧
      (∀ (attempts : List Bool) (v : Bool),
        attempts.foldl settleD (some v) = some v)) :=
  ⟨by decide,
    run_settles_exactly_once [] [(true, [Event.start [0]]), (false, [Event.start [1]])]
      (by decide)⟩

/-! ## C8 — content of the children list across batches -/

/-- C8 counterexample.  For the concrete queue of two sync batches of one
command each, the children list of the model at the moment the second
batch starts still holds the child pushed by the already completed first
batch: run() clears the list only at the start of a run (CommandQueue.js
line 110), and runCommand only ever appends (lines 257 and 288), so the
set does not contain only handles of the currently active batch. -/
theorem children_not_only_active_batch :
    childrenAtBatch q2 1 = [Child.proc true] ∧ childrenAtBatch q2 1 ≠ [] := by
  have h : batchContribs q2 = [[Child.proc true], [Child.proc true]] := by
    simp [q2, batchContribs, runCommands, runCommand, runSync, syncChildren]
  constructor
  · rw [childrenAtBatch, h]
    rfl
  · rw [childrenAtBatch, h]
    simp

/-- C8 amended.  The children list of the model is cleared when run()
starts (CommandQueue.js line 110) and accumulates from then on: at the
start of batch `k + 1` it holds exactly what it held at the start of
batch `k` followed by the children batch `k` pushed, and handles pushed
by completed batches are never removed before the next run() clears the
list. -/
theorem children_accumulate (q : QueueDef) (k : Nat) :
    childrenAtBatch q 0 = [] ∧
    childrenAtBatch q (k + 1) = childrenAtBatch q k ++ (batchContribs q).getD k [] := by
  constructor
  · rfl
  · rw [childrenAtBatch, childrenAtBatch, List.take_succ, List.flatten_append]
    congr 1
    rw [List.getD_eq_getElem?_getD]
    cases hk : (batchContribs q)[k]? <;> simp

/-! ## C9 — nested queues as work items -/

theorem runBatches_trace_ends : ∀ (q : QueueDef) (p : List Nat) (b : Nat)
    (ch : List Child), ∃ t, (runBatches p b ch q).2 =
      t ++ [Event.settle p (runBatches p b ch q).1]
  | QueueDef.qnil, p, b, ch => ⟨[], by simp [runBatches]⟩
  | QueueDef.qcons d sched items rest, p, b, ch => by
      cases d with
      | sync =>
          simp only [runBatches]
          split
          · obtain ⟨t, ht⟩ := runBatches_trace_ends rest p (b + 1)
              (ch ++ syncChildren items)
            rw [ht]
            exact ⟨_, (List.append_assoc _ t _).symm⟩
          · exact ⟨_, rfl⟩
      | async =>
          simp only [runBatches]
          split
          · obtain ⟨t, ht⟩ := runBatches_trace_ends rest p (b + 1)
              (ch ++ asyncChildren ((runCommands (p ++ [b]) 0 items).map Prod.fst) sched 0 items)
            rw [ht]
            exact ⟨_, (List.append_assoc _ t _).symm⟩
          · exact ⟨_, rfl⟩
      | parallel =>
          simp only [runBatches]
          split
          · obtain ⟨t, ht⟩ := runBatches_trace_ends rest p (b + 1)
              (ch ++ asyncChildren ((runCommands (p ++ [b]) 0 items).map Prod.fst) sched 0 items)
            rw [ht]
            exact ⟨_, (List.append_assoc _ t _).symm⟩
          · exact ⟨_, rfl⟩

/-- C9.  Embedding of modelProto.runCommand (CommandQueue.js lines
250-259) and modelProto.runSync (lines 181-203).  A work item that is a
nested queue delegates to the run() of that queue and settles exactly as
the nested run settles; in a sync batch whose first item is a nested
queue, the batch resolves exactly when the nested run and the remaining
items resolve, and every event of the remaining items comes strictly
after the settlement event of the nested queue in the trace: if the
nested run fails the remaining items never start, and otherwise they
start only once it has settled. -/
theorem nested_queue_delegation (p : List Nat) (q : QueueDef) (rest : ItemList) :
    (runCommand (p ++ [0]) (WorkItem.sub q)).1 = (runQueue (p ++ [0]) q).1 ∧
    (runSync (runCommands p 0 (ItemList.icons (WorkItem.sub q) rest))).1 =
      ((runQueue (p ++ [0]) q).1 && (runSync (runCommands p 1 rest)).1) ∧
    (∃ t, (runQueue (p ++ [0]) q).2 =
        t ++ [Event.settle (p ++ [0]) (runQueue (p ++ [0]) q).1] ∧
      (runSync (runCommands p 0 (ItemList.icons (WorkItem.sub q) rest))).2 =
        Event.start (p ++ [0]) :: t
          ++ [Event.settle (p ++ [0]) (runQueue (p ++ [0]) q).1,
              Event.fin (p ++ [0]) (runQueue (p ++ [0]) q).1]
          ++ (if (runQueue (p ++ [0]) q).1 then (runSync (runCommands p 1 rest)).2 else [])) := by
  obtain ⟨t, ht⟩ := runBatches_trace_ends q (p ++ [0]) 0 []
  have hitem : runCommand (p ++ [0]) (WorkItem.sub q) =
      ((runQueue (p ++ [0]) q).1,
        Event.start (p ++ [0]) :: ((runQueue (p ++ [0]) q).2
          ++ [Event.fin (p ++ [0]) (runQueue (p ++ [0]) q).1])) := by
    simp [runCommand, runQueue_def]
  have hri : runCommands p 0 (ItemList.icons (WorkItem.sub q) rest) =
      runCommand (p ++ [0]) (WorkItem.sub q) :: runCommands p 1 rest := by
    simp [runCommands]
  refine ⟨by rw [hitem], ?_, ?_⟩
  · rw [hri, hitem]
    by_cases hb : (runQueue (p ++ [0]) q).1 = true
    · simp [runSync, hb]
    · simp [runSync, hb]
  · refine ⟨t, ht, ?_⟩
    rw [hri, hitem]
    simp only [runQueue_def]
    by_cases hb : (runBatches (p ++ [0]) 0 [] q).1 = true
    · simp [runSync, hb, ht]
    · simp [runSync, hb, ht]

/-! ## C10 — the areAllClosed diagnostic -/

/-- C10.  Embedding of modelProto.areAllClosed (CommandQueue.js lines
311-321): the diagnostic is true exactly when every non-queue child of
the top-level children list has its closed flag set; nested-queue
children are never inspected, so the diagnostic is true on a children
list whose only entry is a nested queue that still has a running child
process of its own. -/
theorem areAllClosed_spec (cs : List Child) :
    (areAllClosed cs = true ↔ ∀ b, Child.proc b ∈ cs → b = true) ∧
    areAllClosed [Child.sub [Child.proc false]] = true := by
  constructor
  · induction cs with
    | nil => simp [areAllClosed]
    | cons c rest ih =>
        cases c with
        | proc closed =>
            cases closed with
            | true => simp [areAllClosed, ih]
            | false =>
                refine iff_of_false (by simp [areAllClosed]) ?_
                intro hall
                have := hall false (by simp)
                cases this
        | sub cs2 => simp [areAllClosed, ih]
  · rfl

end CommandQueue
